import Mathlib

/-!
Verification of the jellywal write-ahead log core.

Shallow embedding of the Go sources (`jellywal.go`): byte buffers and file
names are `List Nat` (Go strings and `[]byte` are byte sequences), Go `int`
is `Int` where sign matters and `Nat` where the source keeps values
non-negative, `uint64` arithmetic is `Nat` with explicit `% 2 ^ 64`.
Filesystem primitives (open/seek/read a file, list a directory) are out of
scope per spec section 1 and are modelled as succeeding; the directory
listing and the tail file's contents are passed in as parameters, and the
file operations a procedure performs are returned as an explicit trace.
-/

set_option maxHeartbeats 1000000

namespace Jellywal

/-- Error values. The sentinel `ErrCorrupt` is declared outside the provided
source files but is referenced by `loadNextBinaryEntry`; `wrapped` models
`fmt.Errorf` with a trailing `%w` verb, which wraps an inner error with a
context message. -/
inductive Err where
  | errCorrupt : Err
  | wrapped : String → Err → Err
deriving DecidableEq, Repr

/-- Models `errors.Is(e, ErrCorrupt)`: the wrap chain bottoms out at
`ErrCorrupt`. -/
def wrapsCorrupt : Err → Bool
  | .errCorrupt => true
  | .wrapped _ e => wrapsCorrupt e

/-- Go `bytepos`: byte positions in a buffer. The Go field `end` (one byte
past the entry) is a Lean keyword, so it is called `endPos` here. -/
structure Bytepos where
  start : Nat
  endPos : Nat
deriving DecidableEq, Repr

/-- Go `segment`: one segment file. Paths are byte strings; the directory
prefix added by `filepath.Join` is elided (it is the same for every
segment), so `path` holds the file name. `cbuf`/`cpos` default to `nil` as
in a fresh Go struct. -/
structure Segment where
  path : List Nat
  index : Nat
  cbuf : List Nat := []
  cpos : List Bytepos := []
deriving DecidableEq, Repr

/-- One result of `os.ReadDir`: a name and the directory bit. -/
structure DirEntry where
  name : List Nat
  isDir : Bool
deriving DecidableEq, Repr

def DefaultSegmentSize : Int := 20 * 1024 * 1024

def DefaultDirPerms : Nat := 0o750

def DefaultFilePerms : Nat := 0o640

/-- Go `Config`. `SegmentSize` is a Go `int` (can be negative), so `Int`;
the `os.FileMode` permission fields are `Nat`. -/
structure Config where
  sync : Bool
  segmentSize : Int
  dirPerms : Nat
  filePerms : Nat
deriving DecidableEq, Repr

def DefaultConfig : Config :=
  { sync := true
    segmentSize := DefaultSegmentSize
    dirPerms := DefaultDirPerms
    filePerms := DefaultFilePerms }

/-- Go `(*Config).Validate`. -/
def Config.Validate (c : Config) : Config :=
  { c with
    segmentSize := if c.segmentSize ≤ 0 then DefaultSegmentSize else c.segmentSize
    dirPerms := if c.dirPerms = 0 then DefaultDirPerms else c.dirPerms
    filePerms := if c.filePerms = 0 then DefaultFilePerms else c.filePerms }

def MaxVarintLen64 : Nat := 10

/-- Model of Go `encoding/binary.Uvarint`'s range loop: `i` is the byte
index, `x` the accumulated value, `s` the accumulated shift. Returns the
decoded value and the byte count: `0` when the buffer ran out, negative on
overflow, positive on success. `b &&& 0x7f` is written `b % 0x80`, and the
`uint64` or/shift is truncated with `% 2 ^ 64` exactly where Go would
truncate. -/
def uvarintLoop : List Nat → Nat → Nat → Nat → Nat × Int
  | [], _, _, _ => (0, 0)
  | b :: rest, i, x, s =>
    if i = MaxVarintLen64 then (0, -((i : Int) + 1))
    else if b < 0x80 then
      if i = MaxVarintLen64 - 1 ∧ 1 < b then (0, -((i : Int) + 1))
      else ((x ||| (b <<< s)) % 2 ^ 64, (i : Int) + 1)
    else uvarintLoop rest (i + 1) ((x ||| ((b % 0x80) <<< s)) % 2 ^ 64) (s + 7)

/-- Go `binary.Uvarint(buf)`. -/
def uvarint (buf : List Nat) : Nat × Int := uvarintLoop buf 0 0 0

/-- Go `(*Log).loadNextBinaryEntry`. In the source the length check is
`uint64(len(data)-bytesRead) < size`; since `Uvarint` never consumes more
bytes than the buffer holds (`uvarintLoop_pos` below), `bytesRead ≤
len(data)` and the `Nat` subtraction here agrees with Go's exact `int`
subtraction followed by the `uint64` conversion. -/
def loadNextBinaryEntry (data : List Nat) : Except Err Nat :=
  if (uvarint data).2 ≤ 0 then .error .errCorrupt
  else if data.length - (uvarint data).2.toNat < (uvarint data).1 then .error .errCorrupt
  else .ok ((uvarint data).2.toNat + (uvarint data).1)

/-- Master lemma about a successful `uvarintLoop` run: it consumes between
1 and `buf.length` bytes, the returned count is the start index plus the
bytes consumed, and the result only depends on the consumed prefix (it is
stable under truncating to that prefix and under appending a suffix). -/
theorem uvarintLoop_pos (buf : List Nat) : ∀ i x s v k,
    uvarintLoop buf i x s = (v, k) → 0 < k →
    ∃ m, 1 ≤ m ∧ m ≤ buf.length ∧ k = ((i + m : Nat) : Int) ∧
      uvarintLoop (buf.take m) i x s = (v, k) ∧
      ∀ t, uvarintLoop (buf ++ t) i x s = (v, k) := by
  induction buf with
  | nil =>
    intro i x s v k h hk
    rw [uvarintLoop, Prod.mk.injEq] at h
    omega
  | cons b bs ih =>
    intro i x s v k h hk
    rw [uvarintLoop] at h
    by_cases hi : i = MaxVarintLen64
    · rw [if_pos hi, Prod.mk.injEq] at h
      omega
    · rw [if_neg hi] at h
      by_cases hb : b < 0x80
      · rw [if_pos hb] at h
        by_cases hov : i = MaxVarintLen64 - 1 ∧ 1 < b
        · rw [if_pos hov, Prod.mk.injEq] at h
          omega
        · rw [if_neg hov] at h
          have h2 : ((i : Int) + 1) = k := congrArg Prod.snd h
          refine ⟨1, le_refl 1, by simp, ?_, ?_, ?_⟩
          · omega
          · simp only [List.take_succ_cons, List.take_zero]
            rw [uvarintLoop, if_neg hi, if_pos hb, if_neg hov]
            exact h
          · intro t
            simp only [List.cons_append]
            rw [uvarintLoop, if_neg hi, if_pos hb, if_neg hov]
            exact h
      · rw [if_neg hb] at h
        obtain ⟨m, hm1, hmle, hkm, htake, happ⟩ := ih _ _ _ _ _ h hk
        refine ⟨m + 1, by omega, by simp; omega, by omega, ?_, ?_⟩
        · simp only [List.take_succ_cons]
          rw [uvarintLoop, if_neg hi, if_neg hb]
          exact htake
        · intro t
          simp only [List.cons_append]
          rw [uvarintLoop, if_neg hi, if_neg hb]
          exact happ t

/-- `Uvarint` never reports more consumed bytes than the buffer holds. -/
theorem uvarint_toNat_le (buf : List Nat) : ((uvarint buf).2).toNat ≤ buf.length := by
  rcases hk : uvarint buf with ⟨v, k⟩
  by_cases hpos : 0 < k
  · obtain ⟨m, hm1, hmle, hkm, -, -⟩ := uvarintLoop_pos buf 0 0 0 v k hk hpos
    simp only
    omega
  · simp only
    omega

/-- A successful decode consumes at least one byte and at most the whole
buffer. -/
theorem loadNextBinaryEntry_ok_bounds (data : List Nat) (n : Nat)
    (h : loadNextBinaryEntry data = .ok n) : 1 ≤ n ∧ n ≤ data.length := by
  unfold loadNextBinaryEntry at h
  split at h
  · exact absurd h (by simp)
  · split at h
    · exact absurd h (by simp)
    · rename_i hpos hlen
      simp only [Except.ok.injEq] at h
      have hle := uvarint_toNat_le data
      omega

/-- The decoder only ever fails with the `ErrCorrupt` sentinel itself. -/
theorem loadNextBinaryEntry_error (data : List Nat) (e : Err)
    (h : loadNextBinaryEntry data = .error e) : e = .errCorrupt := by
  unfold loadNextBinaryEntry at h
  split at h
  · simpa using h.symm
  · split at h
    · simpa using h.symm
    · exact absurd h (by simp)

/-- Wrap message used at the failure point inside `loadSegmentEntries`. -/
def msgBinaryEntry : String := "failed to load binary entry from log segment"

/-- Wrap message used by `openLastSegment`. -/
def msgLoadLastEntries : String := "failed to load last log segment entries"

/-- Wrap message used by `loadSegments` around `openLastSegment` failures. -/
def msgOpenLast : String := "failed to open last log segment"

/-- Wrap message used by `loadSegments` around `createInitialSegment`
failures (in this model segment creation cannot fail, the constant is kept
for completeness). -/
def msgCreateInitial : String := "failed to create initial log segment"

/-- The scan loop of Go `(*Log).loadSegmentEntries`, as a recursion on the
remaining buffer: while bytes remain, decode the next entry, record the
byte range `[pos, pos+n)` and continue after it; a decode failure aborts
the scan wrapped with context. -/
def lseGo (data : List Nat) (pos : Nat) : Except Err (List Bytepos) :=
  if _h : data.length = 0 then .ok []
  else
    match he : loadNextBinaryEntry data with
    | .error e => .error (.wrapped msgBinaryEntry e)
    | .ok n =>
      match lseGo (data.drop n) (pos + n) with
      | .error e => .error e
      | .ok ps => .ok (⟨pos, pos + n⟩ :: ps)
termination_by data.length
decreasing_by
  have hb := loadNextBinaryEntry_ok_bounds data n he
  simp only [List.length_drop]
  omega

/-- Go `(*Log).loadSegmentEntries`, on the segment file's full contents
(`os.ReadFile` is modelled as succeeding and its result passed in).
Returns the segment's cache: the whole buffer (`cbuf`) and the entry
positions (`cpos`). -/
def loadSegmentEntries (contents : List Nat) : Except Err (List Nat × List Bytepos) :=
  match lseGo contents 0 with
  | .error e => .error e
  | .ok ps => .ok (contents, ps)

/-- Most-significant-digit-first zero-padded decimal digits: `w` digit
bytes for `n`. For `n < 10 ^ w` this is the `w`-wide zero-padded decimal
form of `n`. -/
def toPaddedDigits : Nat → Nat → List Nat
  | 0, _ => []
  | w + 1, n => (48 + n / 10 ^ w % 10) :: toPaddedDigits w (n % 10 ^ w)

/-- Go `segmentName`: `fmt.Sprintf("%020d", index)`. For every `uint64`
value (`index < 2 ^ 64 < 10 ^ 20`) the verb prints exactly the 20-digit
zero-padded decimal form, which is what `toPaddedDigits 20` produces. -/
def segmentName (index : Nat) : List Nat := toPaddedDigits 20 index

/-- ASCII decimal digit test, as in Go's `strconv` (`'0' <= c && c <= '9'`). -/
def isDigitByte (c : Nat) : Bool := 48 ≤ c && c ≤ 57

/-- Decimal value of a digit-byte string, accumulated left to right as
`strconv.ParseUint` does. -/
def digitsValue (s : List Nat) : Nat := s.foldl (fun a c => a * 10 + (c - 48)) 0

/-- Model of Go `strconv.ParseUint(s, 10, 64)`: fails on an empty string,
on any non-digit byte (base 10 admits no sign, no underscores), and on
values that do not fit in 64 bits; otherwise returns the decimal value. -/
def parseUint64 (s : List Nat) : Option Nat :=
  if s.isEmpty then none
  else if ¬ s.all isDigitByte then none
  else if digitsValue s < 2 ^ 64 then some (digitsValue s) else none

/-- Byte-wise lexicographic strict order on byte strings, as Go's `<` on
`string` (a strict prefix is smaller). -/
def lexLt : List Nat → List Nat → Bool
  | _, [] => false
  | [], _ :: _ => true
  | a :: as, b :: bs => decide (a < b) || (decide (a = b) && lexLt as bs)

/-- One iteration of the directory scan in Go `(*Log).loadSegments`: skip
directories and names shorter than 20 bytes, parse the first 20 bytes as a
`uint64`, skip on parse failure or a zero index, and register the segment
only when the name is exactly 20 bytes long. -/
def scanStep (segs : List Segment) (file : DirEntry) : List Segment :=
  if file.isDir || file.name.length < 20 then segs
  else
    match parseUint64 (file.name.take 20) with
    | none => segs
    | some index =>
      if index = 0 then segs
      else if file.name.length = 20 then
        segs ++ [{ path := file.name, index := index }]
      else segs

/-- The directory scan of Go `(*Log).loadSegments`, over the entries
returned by `os.ReadDir` (appending to the initially empty `l.segments`). -/
def scanSegments (files : List DirEntry) : List Segment :=
  files.foldl scanStep []

/-- The access mode bits of an `os.OpenFile` call. -/
inductive OpenMode where
  | rdonly : OpenMode
  | wronly : OpenMode
  | rdwr : OpenMode
deriving DecidableEq, Repr

/-- The flags of an `os.OpenFile` call: access mode plus the `O_CREATE`
and `O_TRUNC` bits used by this code. -/
structure OpenFlags where
  mode : OpenMode
  create : Bool
  trunc : Bool
deriving DecidableEq, Repr

/-- A filesystem operation performed during recovery, recorded as a trace
element: opening a file with flags and permissions, seeking to
end-of-file (`Seek(0, 2)`), or reading a file's full contents
(`os.ReadFile`). -/
inductive FsOp where
  | openFile : List Nat → OpenFlags → Nat → FsOp
  | seekEnd : List Nat → FsOp
  | readFile : List Nat → FsOp
deriving DecidableEq, Repr

/-- Go `(*Log).createInitialSegment`: segment 1, named `segmentName 1`,
its file opened with `O_CREATE|O_RDWR|O_TRUNC` under the configured file
permissions. Returns the new segment and the trace. -/
def createInitialSegment (filePerms : Nat) : Segment × List FsOp :=
  let s : Segment := { path := segmentName 1, index := 1 }
  (s, [FsOp.openFile s.path ⟨OpenMode.rdwr, true, true⟩ filePerms])

/-- Go `(*Log).openLastSegment`: open the tail file with `O_WRONLY`, seek
to end-of-file, then run `loadSegmentEntries` on the file contents
(which reads the file). Returns the trace and either the segment with its
cache populated or the wrapped decode error. -/
def openLastSegment (seg : Segment) (filePerms : Nat) (contents : List Nat) :
    List FsOp × Except Err Segment :=
  ([FsOp.openFile seg.path ⟨OpenMode.wronly, false, false⟩ filePerms,
    FsOp.seekEnd seg.path, FsOp.readFile seg.path],
   match loadSegmentEntries contents with
   | .error e => .error (.wrapped msgLoadLastEntries e)
   | .ok pr => .ok { seg with cbuf := pr.1, cpos := pr.2 })

/-- Go `(*Log).loadSegments` (after `os.ReadDir`, modelled as succeeding
with the given entries): scan the directory, then either create the
initial segment (none found) or open the last segment in listing order as
the tail, updating it in place with its cache. `tailContents` is what
reading the tail file yields. -/
def loadSegments (files : List DirEntry) (filePerms : Nat) (tailContents : List Nat) :
    List FsOp × Except Err (List Segment) :=
  let segs := scanSegments files
  match segs.getLast? with
  | none =>
    let pr := createInitialSegment filePerms
    (pr.2, .ok [pr.1])
  | some lastSeg =>
    let pr := openLastSegment lastSeg filePerms tailContents
    (pr.1,
     match pr.2 with
     | .error e => .error (.wrapped msgOpenLast e)
     | .ok seg2 => .ok (segs.dropLast ++ [seg2]))

/-- Log lifecycle state visible to the claims. -/
structure LogState where
  segments : List Segment
  config : Config
  closed : Bool
  corrupt : Bool
deriving Repr

/-- Modelled from the spec: the public `Open` operation is not among the
provided source files (they contain only the recovery helpers it calls).
Per spec section 4.4, `Open` validates/defaults the config, ensures the
directory, then runs Recovery/Load; per sections 4.3 and 7, any decode
failure during recovery marks the Log `corrupt` and the open operation
fails with that error. -/
def openLog (cfg : Config) (files : List DirEntry) (tailContents : List Nat) :
    LogState × List FsOp × Option Err :=
  let c := cfg.Validate
  let pr := loadSegments files c.filePerms tailContents
  match pr.2 with
  | .error e =>
    ({ segments := [], config := c, closed := false, corrupt := true }, pr.1, some e)
  | .ok segs =>
    ({ segments := segs, config := c, closed := false, corrupt := false }, pr.1, none)

/-- Modelled from the spec: section 7 — once `CorruptError` has set the
`corrupt` flag, all subsequent reads and writes fail with `CorruptError`
until the log is closed; this is the guard those operations consult. -/
def readWriteGuard (l : LogState) : Option Err :=
  if l.corrupt then some Err.errCorrupt else none

/-- Spec-side definition (refinement target), following the spec's words:
a file "is valid iff it is empty or consists of a whole number of
length-prefixed records (varint length followed by exactly that many
payload bytes) with no trailing partial record". A header is a varint
encoding of the payload length when the varint decoder consumes exactly
the header and yields that length. -/
inductive SpecValidFile : List Nat → Prop where
  | nil : SpecValidFile []
  | record (header payload rest : List Nat) (v : Nat) :
      0 < header.length →
      uvarint header = (v, (header.length : Int)) →
      payload.length = v →
      SpecValidFile rest →
      SpecValidFile (header ++ payload ++ rest)

/-- `PartitionChain a ps b`: the byte ranges `ps` tile `[a, b)` exactly —
the first starts at `a`, each range is non-empty and ends where the next
begins, and the last ends at `b` (`ps` is empty exactly when `a = b`). -/
inductive PartitionChain : Nat → List Bytepos → Nat → Prop where
  | nil (n : Nat) : PartitionChain n [] n
  | cons (a b c : Nat) (ps : List Bytepos) :
      a < b → PartitionChain b ps c → PartitionChain a (⟨a, b⟩ :: ps) c

/-- The claim's registration predicate for the directory scan, following
the words of C5: an entry is registered iff it is not a directory, its
name is exactly 20 characters, and those characters parse as a positive
base-10 integer, which becomes the segment's starting index. -/
def registeredSegment (f : DirEntry) : Option Segment :=
  if f.isDir then none
  else if f.name.length = 20 then
    match parseUint64 f.name with
    | some index => if 0 < index then some { path := f.name, index := index } else none
    | none => none
  else none

/-! ## Lemmas about the varint decoder and the segment scan -/

/-- A successful decode is stable under appending bytes: the loop stops at
the terminating byte and never looks further. -/
theorem uvarint_append (buf : List Nat) (v : Nat) (k : Int)
    (h : uvarint buf = (v, k)) (hk : 0 < k) (t : List Nat) :
    uvarint (buf ++ t) = (v, k) := by
  obtain ⟨m, -, -, -, -, happ⟩ := uvarintLoop_pos buf 0 0 0 v k h hk
  exact happ t

/-- A successful decode consumes a prefix of the buffer and gives the same
answer on that prefix alone. -/
theorem uvarint_take (buf : List Nat) (v : Nat) (k : Int)
    (h : uvarint buf = (v, k)) (hk : 0 < k) :
    k.toNat ≤ buf.length ∧ k = (k.toNat : Int) ∧
      uvarint (buf.take k.toNat) = (v, k) := by
  obtain ⟨m, hm1, hmle, hkm, htake, -⟩ := uvarintLoop_pos buf 0 0 0 v k h hk
  have hkm2 : k.toNat = m := by omega
  refine ⟨by omega, by omega, ?_⟩
  rw [hkm2]
  exact htake

/-- Unfolding `lseGo` on an empty buffer. -/
theorem lseGo_eq_nil (data : List Nat) (pos : Nat) (h : data.length = 0) :
    lseGo data pos = .ok [] := by
  rw [lseGo, dif_pos h]

/-- Unfolding `lseGo` when the front decode fails. -/
theorem lseGo_eq_error (data : List Nat) (pos : Nat) (e : Err)
    (hne : ¬ data.length = 0) (h : loadNextBinaryEntry data = .error e) :
    lseGo data pos = .error (.wrapped msgBinaryEntry e) := by
  rw [lseGo, dif_neg hne]
  split
  · rename_i e2 he2
    rw [h] at he2
    injection he2 with he2
    rw [he2]
  · rename_i n he2
    rw [h] at he2
    cases he2

/-- Unfolding `lseGo` when the front decode succeeds. -/
theorem lseGo_eq_ok (data : List Nat) (pos n : Nat)
    (hne : ¬ data.length = 0) (h : loadNextBinaryEntry data = .ok n) :
    lseGo data pos =
      match lseGo (data.drop n) (pos + n) with
      | .error e => .error e
      | .ok ps => .ok (⟨pos, pos + n⟩ :: ps) := by
  rw [lseGo, dif_neg hne]
  split
  · rename_i e2 he2
    rw [h] at he2
    cases he2
  · rename_i m hm
    rw [h] at hm
    injection hm with hm
    rw [hm]

/-- A spec-valid file scans successfully, from any starting position. -/
theorem lseGo_ok_of_valid (data : List Nat) (hv : SpecValidFile data) :
    ∀ pos, ∃ ps, lseGo data pos = .ok ps := by
  induction hv with
  | nil =>
    intro pos
    exact ⟨[], lseGo_eq_nil [] pos rfl⟩
  | record header payload rest v hlen huv hpl hrest ih =>
    intro pos
    have hassoc : header ++ payload ++ rest = header ++ (payload ++ rest) :=
      List.append_assoc header payload rest
    have huv2 : uvarint (header ++ payload ++ rest) = (v, (header.length : Int)) := by
      rw [hassoc]
      exact uvarint_append header v (header.length : Int) huv (by omega) (payload ++ rest)
    have hok : loadNextBinaryEntry (header ++ payload ++ rest) = .ok (header.length + v) := by
      unfold loadNextBinaryEntry
      rw [huv2]
      simp only [Int.toNat_ofNat, List.length_append]
      rw [if_neg (by omega), if_neg (by omega)]
    have hne : ¬ (header ++ payload ++ rest).length = 0 := by
      simp only [List.length_append]
      omega
    have hdrop : (header ++ payload ++ rest).drop (header.length + v) = rest := by
      have hlen2 : header.length + v = (header ++ payload).length := by
        simp [List.length_append, hpl]
      rw [hlen2]
      exact List.drop_left (header ++ payload) rest
    obtain ⟨ps, hps⟩ := ih (pos + (header.length + v))
    refine ⟨⟨pos, pos + (header.length + v)⟩ :: ps, ?_⟩
    rw [lseGo_eq_ok (header ++ payload ++ rest) pos (header.length + v) hne hok,
      hdrop, hps]

/-- Characterization of a successful front decode: the buffer splits as a
varint header, a payload of the declared length, and a remainder, and the
consumed count is the header width plus the payload length. -/
theorem loadNextBinaryEntry_ok_split (data : List Nat) (n : Nat)
    (h : loadNextBinaryEntry data = .ok n) :
    ∃ header payload rest v,
      data = header ++ payload ++ rest ∧
      0 < header.length ∧
      uvarint header = (v, (header.length : Int)) ∧
      payload.length = v ∧
      n = header.length + v := by
  unfold loadNextBinaryEntry at h
  split at h
  · cases h
  · split at h
    · cases h
    · rename_i hpos hlen
      rcases huv : uvarint data with ⟨v, k⟩
      rw [huv] at hpos hlen h
      simp only [not_le] at hpos
      simp only [Except.ok.injEq] at h
      obtain ⟨hkle, hknat, htake⟩ := uvarint_take data v k huv hpos
      refine ⟨data.take k.toNat, (data.drop k.toNat).take v,
        (data.drop k.toNat).drop v, v, ?_, ?_, ?_, ?_, ?_⟩
      · rw [List.append_assoc, List.take_append_drop, List.take_append_drop]
      · simp only [List.length_take]
        omega
      · rw [List.length_take, min_eq_left hkle, ← hknat]
        exact htake
      · simp only [List.length_take, List.length_drop]
        omega
      · simp only [List.length_take, min_eq_left hkle]
        omega

/-- A successful scan means the buffer is a spec-valid file. -/
theorem valid_of_lseGo_ok : ∀ fuel data pos ps, data.length ≤ fuel →
    lseGo data pos = .ok ps → SpecValidFile data := by
  intro fuel
  induction fuel with
  | zero =>
    intro data pos ps hle _
    have : data = [] := List.eq_nil_of_length_eq_zero (by omega)
    rw [this]
    exact SpecValidFile.nil
  | succ f ihf =>
    intro data pos ps hle hok
    by_cases hlen : data.length = 0
    · have : data = [] := List.eq_nil_of_length_eq_zero hlen
      rw [this]
      exact SpecValidFile.nil
    · cases hlb : loadNextBinaryEntry data with
      | error e =>
        rw [lseGo_eq_error data pos e hlen hlb] at hok
        cases hok
      | ok n =>
        rw [lseGo_eq_ok data pos n hlen hlb] at hok
        have hb := loadNextBinaryEntry_ok_bounds data n hlb
        obtain ⟨header, payload, rest, v, hdata, hhl, huv, hpl, hn⟩ :=
          loadNextBinaryEntry_ok_split data n hlb
        have hdrop : data.drop n = rest := by
          rw [hdata, hn]
          have hlen2 : header.length + v = (header ++ payload).length := by
            simp [List.length_append, hpl]
          rw [List.append_assoc, ← List.append_assoc, hlen2]
          exact List.drop_left (header ++ payload) rest
        rw [hdrop] at hok
        cases hrec : lseGo rest (pos + n) with
        | error e =>
          rw [hrec] at hok
          cases hok
        | ok ps2 =>
          have hrest : SpecValidFile rest := by
            refine ihf rest (pos + n) ps2 ?_ hrec
            have : rest.length = data.length - n := by
              rw [← hdrop, List.length_drop]
            omega
          rw [hdata]
          exact SpecValidFile.record header payload rest v hhl huv hpl hrest

/-- Every scan failure is a wrap of `ErrCorrupt`. -/
theorem lseGo_error_wrapsCorrupt : ∀ fuel data pos e, data.length ≤ fuel →
    lseGo data pos = .error e → wrapsCorrupt e = true := by
  intro fuel
  induction fuel with
  | zero =>
    intro data pos e hle herr
    have : data = [] := List.eq_nil_of_length_eq_zero (by omega)
    rw [this, lseGo_eq_nil [] pos rfl] at herr
    cases herr
  | succ f ihf =>
    intro data pos e hle herr
    by_cases hlen : data.length = 0
    · rw [lseGo_eq_nil data pos hlen] at herr
      cases herr
    · cases hlb : loadNextBinaryEntry data with
      | error e0 =>
        rw [lseGo_eq_error data pos e0 hlen hlb] at herr
        injection herr with herr
        rw [← herr]
        simp only [wrapsCorrupt]
        rw [loadNextBinaryEntry_error data e0 hlb]
        rfl
      | ok n =>
        rw [lseGo_eq_ok data pos n hlen hlb] at herr
        have hb := loadNextBinaryEntry_ok_bounds data n hlb
        cases hrec : lseGo (data.drop n) (pos + n) with
        | error e2 =>
          rw [hrec] at herr
          injection herr with herr
          rw [← herr]
          refine ihf (data.drop n) (pos + n) e2 ?_ hrec
          simp only [List.length_drop]
          omega
        | ok ps2 =>
          rw [hrec] at herr
          cases herr

/-- A successful scan tiles the byte interval `[pos, pos + length)`. -/
theorem lseGo_chain : ∀ fuel data pos ps, data.length ≤ fuel →
    lseGo data pos = .ok ps → PartitionChain pos ps (pos + data.length) := by
  intro fuel
  induction fuel with
  | zero =>
    intro data pos ps hle hok
    have hnil : data = [] := List.eq_nil_of_length_eq_zero (by omega)
    rw [hnil] at hok ⊢
    rw [lseGo_eq_nil [] pos rfl] at hok
    injection hok with hok
    rw [← hok]
    simpa using PartitionChain.nil pos
  | succ f ihf =>
    intro data pos ps hle hok
    by_cases hlen : data.length = 0
    · rw [lseGo_eq_nil data pos hlen] at hok
      injection hok with hok
      rw [← hok, hlen]
      simpa using PartitionChain.nil pos
    · cases hlb : loadNextBinaryEntry data with
      | error e =>
        rw [lseGo_eq_error data pos e hlen hlb] at hok
        cases hok
      | ok n =>
        rw [lseGo_eq_ok data pos n hlen hlb] at hok
        have hb := loadNextBinaryEntry_ok_bounds data n hlb
        cases hrec : lseGo (data.drop n) (pos + n) with
        | error e2 =>
          rw [hrec] at hok
          cases hok
        | ok ps2 =>
          rw [hrec] at hok
          injection hok with hok
          have hchain := ihf (data.drop n) (pos + n) ps2
            (by simp only [List.length_drop]; omega) hrec
          have heq : pos + n + (data.drop n).length = pos + data.length := by
            simp only [List.length_drop]
            omega
          rw [heq] at hchain
          rw [← hok]
          exact PartitionChain.cons pos (pos + n) (pos + data.length) ps2 (by omega) hchain

/-! ## Claims -/

/-- C1: for every byte buffer, `loadNextBinaryEntry` fails with
`ErrCorrupt` if the leading varint cannot be decoded (`Uvarint` reports
zero or fewer bytes consumed) or if the declared payload length exceeds
the bytes remaining after the varint; otherwise it succeeds and returns
the varint's width plus the declared payload length. -/
theorem C1_loadNextBinaryEntry_contract (data : List Nat) :
    ((uvarint data).2 ≤ 0 ∨ data.length - ((uvarint data).2).toNat < (uvarint data).1 →
      loadNextBinaryEntry data = .error Err.errCorrupt) ∧
    (0 < (uvarint data).2 ∧ (uvarint data).1 ≤ data.length - ((uvarint data).2).toNat →
      loadNextBinaryEntry data = .ok (((uvarint data).2).toNat + (uvarint data).1)) := by
  unfold loadNextBinaryEntry
  constructor
  · intro h
    rcases h with h | h
    · rw [if_pos h]
    · by_cases h0 : (uvarint data).2 ≤ 0
      · rw [if_pos h0]
      · rw [if_neg h0, if_pos h]
  · rintro ⟨h1, h2⟩
    rw [if_neg (by omega), if_neg (by omega)]

/-- Witness for C1 at the buffer `[2, 10, 20]`: one-byte varint declaring
a two-byte payload, so three bytes are consumed. -/
theorem C1_witness : loadNextBinaryEntry [2, 10, 20] = .ok 3 := by
  have h := (C1_loadNextBinaryEntry_contract [2, 10, 20]).2 (by decide)
  exact h

/-- C2: taking a byte buffer as a segment file's full contents, the cache
build succeeds iff the buffer is empty or consists of a whole number of
length-prefixed records with no trailing partial record, and any decode
failure during the front-to-back scan surfaces an error wrapping
`ErrCorrupt`. -/
theorem C2_loadSegmentEntries_contract (data : List Nat) :
    ((∃ pr, loadSegmentEntries data = .ok pr) ↔ SpecValidFile data) ∧
    (∀ e, loadSegmentEntries data = .error e → wrapsCorrupt e = true) := by
  constructor
  · constructor
    · rintro ⟨pr, hpr⟩
      unfold loadSegmentEntries at hpr
      cases hg : lseGo data 0 with
      | error e =>
        rw [hg] at hpr
        cases hpr
      | ok ps =>
        exact valid_of_lseGo_ok data.length data 0 ps (le_refl _) hg
    · intro hv
      obtain ⟨ps, hps⟩ := lseGo_ok_of_valid data hv 0
      refine ⟨(data, ps), ?_⟩
      unfold loadSegmentEntries
      rw [hps]
  · intro e he
    unfold loadSegmentEntries at he
    cases hg : lseGo data 0 with
    | error e2 =>
      rw [hg] at he
      injection he with he
      rw [← he]
      exact lseGo_error_wrapsCorrupt data.length data 0 e2 (le_refl _) hg
    | ok ps =>
      rw [hg] at he
      cases he

/-- Witness for C2 at the buffer `[0x80]` (a truncated varint): the scan
fails and the error wraps `ErrCorrupt`. -/
theorem C2_witness : wrapsCorrupt (Err.wrapped msgBinaryEntry Err.errCorrupt) = true := by
  have h80 : loadSegmentEntries [0x80] = .error (.wrapped msgBinaryEntry .errCorrupt) := by
    unfold loadSegmentEntries
    rw [lseGo_eq_error [0x80] 0 .errCorrupt (by decide) rfl]
  exact (C2_loadSegmentEntries_contract [0x80]).2 _ h80

/-- C10: when the cache build succeeds, the recorded byte ranges form a
contiguous partition of the cached buffer: the first starts at 0, each
range is non-empty and ends where the next starts, and the last ends at
the buffer's length (in particular an empty buffer yields an empty
position table). -/
theorem C10_loadSegmentEntries_partition (data buf : List Nat) (ps : List Bytepos)
    (h : loadSegmentEntries data = .ok (buf, ps)) :
    buf = data ∧ PartitionChain 0 ps data.length := by
  unfold loadSegmentEntries at h
  cases hg : lseGo data 0 with
  | error e =>
    rw [hg] at h
    cases h
  | ok ps2 =>
    rw [hg] at h
    injection h with h
    injection h with h1 h2
    refine ⟨h1.symm, ?_⟩
    rw [← h2]
    have hchain := lseGo_chain data.length data 0 ps2 (le_refl _) hg
    simpa using hchain

/-- Witness for C10 at the buffer `[0]` (one empty-payload record): the
single recorded range is `[0, 1)`. -/
theorem C10_witness : [0] = [0] ∧ PartitionChain 0 [⟨0, 1⟩] (List.length [0]) := by
  have h : loadSegmentEntries [0] = .ok ([0], [⟨0, 1⟩]) := by
    unfold loadSegmentEntries
    rw [lseGo_eq_ok [0] 0 1 (by decide) rfl]
    rw [lseGo_eq_nil (List.drop 1 [0]) (0 + 1) rfl]
  exact ⟨rfl, (C10_loadSegmentEntries_partition [0] [0] [⟨0, 1⟩] h).2⟩

/-- Counterexample for C8: on the fully-unset config (`Sync=false`,
`SegmentSize=0`, zero permissions) validation does not give `Sync` its
documented default `true` — `Validate` never touches `Sync`, so the claim
that all four settings receive their documented defaults is false. -/
theorem C8_counterexample :
    (Config.Validate { sync := false, segmentSize := 0, dirPerms := 0, filePerms := 0 }).sync
        = false ∧
    DefaultConfig.sync = true := ⟨rfl, rfl⟩

/-- C8 amended: validation applies the documented defaults to the three
non-boolean settings — `SegmentSize ≤ 0` becomes the 20 MiB default, zero
`DirPerms` becomes 0750, zero `FilePerms` becomes 0640 — while `Sync` is
left exactly as given (an unset `false` cannot be told apart from an
explicit `false` and is not defaulted). -/
theorem C8_validate_defaults (c : Config) :
    (Config.Validate c).sync = c.sync ∧
    (Config.Validate c).segmentSize =
      (if c.segmentSize ≤ 0 then DefaultSegmentSize else c.segmentSize) ∧
    (Config.Validate c).dirPerms = (if c.dirPerms = 0 then DefaultDirPerms else c.dirPerms) ∧
    (Config.Validate c).filePerms =
      (if c.filePerms = 0 then DefaultFilePerms else c.filePerms) :=
  ⟨rfl, rfl, rfl, rfl⟩

/-- The padded digit string always has exactly the requested width. -/
theorem toPaddedDigits_length : ∀ w n, (toPaddedDigits w n).length = w := by
  intro w
  induction w with
  | zero => intro n; rfl
  | succ w ih =>
    intro n
    simp only [toPaddedDigits, List.length_cons, ih]

/-- Every byte of the padded digit string is an ASCII decimal digit. -/
theorem toPaddedDigits_digits : ∀ w n c, c ∈ toPaddedDigits w n → 48 ≤ c ∧ c ≤ 57 := by
  intro w
  induction w with
  | zero =>
    intro n c hc
    cases hc
  | succ w ih =>
    intro n c hc
    rcases List.mem_cons.mp hc with hh | ht
    · have : n / 10 ^ w % 10 < 10 := Nat.mod_lt _ (by norm_num)
      omega
    · exact ih _ c ht

/-- `lexLt` is irreflexive. -/
theorem lexLt_irrefl : ∀ l, lexLt l l = false := by
  intro l
  induction l with
  | nil => rfl
  | cons a as ih =>
    simp only [lexLt, ih, decide_eq_true_eq]
    simp

/-- Fixed-width zero-padded decimal strings sort lexicographically in
numeric order. -/
theorem toPaddedDigits_lt : ∀ w a b, a < b → b < 10 ^ w →
    lexLt (toPaddedDigits w a) (toPaddedDigits w b) = true := by
  intro w
  induction w with
  | zero =>
    intro a b hab hb
    simp only [pow_zero] at hb
    omega
  | succ w ih =>
    intro a b hab hb
    have hp : 0 < 10 ^ w := pow_pos (by norm_num) w
    have hps : (10 : Nat) ^ (w + 1) = 10 ^ w * 10 := pow_succ 10 w
    have hqb : b / 10 ^ w < 10 := by
      rw [Nat.div_lt_iff_lt_mul hp]
      omega
    have hqa : a / 10 ^ w < 10 := by
      rw [Nat.div_lt_iff_lt_mul hp]
      omega
    have hqle : a / 10 ^ w ≤ b / 10 ^ w := Nat.div_le_div_right (le_of_lt hab)
    simp only [toPaddedDigits, lexLt, Nat.mod_eq_of_lt hqa, Nat.mod_eq_of_lt hqb,
      Bool.or_eq_true, decide_eq_true_eq, Bool.and_eq_true]
    rcases Nat.lt_or_ge (a / 10 ^ w) (b / 10 ^ w) with hlt | hge
    · left
      omega
    · have hq : a / 10 ^ w = b / 10 ^ w := by omega
      right
      refine ⟨by omega, ?_⟩
      have hma := Nat.div_add_mod a (10 ^ w)
      have hmb := Nat.div_add_mod b (10 ^ w)
      rw [hq] at hma
      have hmlt : a % 10 ^ w < b % 10 ^ w := by
        have h1 : 10 ^ w * (b / 10 ^ w) + a % 10 ^ w = a := hma
        have h2 : 10 ^ w * (b / 10 ^ w) + b % 10 ^ w = b := hmb
        omega
      exact ih (a % 10 ^ w) (b % 10 ^ w) hmlt (Nat.mod_lt _ (by omega))

/-- C9: for starting indices `a < b`, both unsigned 64-bit, the derived
segment file names are exactly 20 zero-padded decimal digit bytes, the
name for `a` sorts lexicographically before the name for `b` (so
lexicographic order of names equals numeric order of indices), and in
particular the naming is injective. -/
theorem C9_segmentName_order (a b : Nat) (hab : a < b) (hb : b < 2 ^ 64) :
    (segmentName a).length = 20 ∧ (segmentName b).length = 20 ∧
    (∀ c, c ∈ segmentName a → 48 ≤ c ∧ c ≤ 57) ∧
    (∀ c, c ∈ segmentName b → 48 ≤ c ∧ c ≤ 57) ∧
    lexLt (segmentName a) (segmentName b) = true ∧
    segmentName a ≠ segmentName b := by
  have hb20 : b < 10 ^ 20 := by
    have : (2 : Nat) ^ 64 < 10 ^ 20 := by norm_num
    omega
  have hlex : lexLt (segmentName a) (segmentName b) = true :=
    toPaddedDigits_lt 20 a b hab hb20
  refine ⟨toPaddedDigits_length 20 a, toPaddedDigits_length 20 b,
    fun c => toPaddedDigits_digits 20 a c, fun c => toPaddedDigits_digits 20 b c,
    hlex, ?_⟩
  intro heq
  rw [heq] at hlex
  rw [lexLt_irrefl] at hlex
  cases hlex

/-- Witness for C9 at indices 1 and 2. -/
theorem C9_witness :
    lexLt (segmentName 1) (segmentName 2) = true ∧ segmentName 1 ≠ segmentName 2 := by
  have h := C9_segmentName_order 1 2 (by norm_num) (by norm_num)
  exact ⟨h.2.2.2.2.1, h.2.2.2.2.2⟩

/-- One scan iteration appends the registered segment (if any) for the
inspected entry: the source's skip conditions (directory, name shorter
than 20, parse failure on the first 20 bytes, zero index, name longer
than 20) are exactly the complement of the claim's registration shape. -/
theorem scanStep_eq (acc : List Segment) (f : DirEntry) :
    scanStep acc f = acc ++ (registeredSegment f).toList := by
  unfold scanStep registeredSegment
  by_cases hd : f.isDir = true
  · simp [hd]
  · have hd2 : f.isDir = false := by
      cases h : f.isDir
      · rfl
      · exact absurd h hd
    by_cases h20 : f.name.length = 20
    · have hnlt : ¬ (f.name.length < 20) := by omega
      have htake : f.name.take 20 = f.name := by
        conv_lhs => rw [← h20]
        exact List.take_length f.name
      rw [htake]
      rw [if_neg (by simp [hd2, hnlt]), if_neg (by simp [hd2]), if_pos h20]
      cases hp : parseUint64 f.name with
      | none => simp [hp]
      | some index =>
        simp only [hp]
        by_cases hz : index = 0
        · simp [hz]
        · have hpos : 0 < index := Nat.pos_of_ne_zero hz
          simp [hz, h20, hpos]
    · by_cases hlt : f.name.length < 20
      · rw [if_pos (by simp [hlt]), if_neg (by simp [hd2]), if_neg h20]
        simp
      · rw [if_neg (by simp [hd2, hlt]), if_neg (by simp [hd2]), if_neg h20]
        cases hp : parseUint64 (f.name.take 20) with
        | none => simp [hp]
        | some index =>
          simp only [hp]
          by_cases hz : index = 0
          · simp [hz]
          · simp [hz, h20]

/-- The whole scan is a `filterMap` of the registration predicate. -/
theorem scanSegments_eq_filterMap (files : List DirEntry) :
    scanSegments files = files.filterMap registeredSegment := by
  unfold scanSegments
  suffices h : ∀ acc, files.foldl scanStep acc = acc ++ files.filterMap registeredSegment by
    simpa using h []
  induction files with
  | nil =>
    intro acc
    simp
  | cons f fs ih =>
    intro acc
    simp only [List.foldl_cons, List.filterMap_cons]
    rw [ih, scanStep_eq]
    cases hp : registeredSegment f with
    | none => simp
    | some s => simp

/-- C5: a filesystem entry is registered as a segment by the directory
scan iff it is not a directory, its name is exactly 20 characters, and
those characters parse as a positive base-10 integer (which becomes the
segment's starting index); everything else is silently skipped — the scan
is total and never produces an error. -/
theorem C5_scan_registration (files : List DirEntry) :
    scanSegments files = files.filterMap registeredSegment :=
  scanSegments_eq_filterMap files

/-- C7: when the scan finds no segment files, recovery creates exactly one
segment with starting index 1, opens its file with truncate-create
read-write mode (`O_CREATE|O_RDWR|O_TRUNC`) under the configured file
permissions, and the resulting segment list is the singleton with an
empty entry cache — so the log is never empty after a successful open. -/
theorem C7_initial_segment (files : List DirEntry) (perms : Nat) (tail : List Nat)
    (h : scanSegments files = []) :
    loadSegments files perms tail =
      ([FsOp.openFile (segmentName 1) ⟨OpenMode.rdwr, true, true⟩ perms],
       .ok [{ path := segmentName 1, index := 1, cbuf := [], cpos := [] }]) := by
  unfold loadSegments
  rw [h]
  rfl

/-- Witness for C7 on an empty directory listing. -/
theorem C7_witness :
    loadSegments [] 0o640 [] =
      ([FsOp.openFile (segmentName 1) ⟨OpenMode.rdwr, true, true⟩ 0o640],
       .ok [{ path := segmentName 1, index := 1, cbuf := [], cpos := [] }]) :=
  C7_initial_segment [] 0o640 [] rfl

/-- Folding digits from an arbitrary accumulator. -/
theorem digitsValue_foldl (s : List Nat) : ∀ acc,
    s.foldl (fun a c => a * 10 + (c - 48)) acc = acc * 10 ^ s.length + digitsValue s := by
  induction s with
  | nil =>
    intro acc
    simp [digitsValue]
  | cons c s ih =>
    intro acc
    simp only [List.foldl_cons, List.length_cons]
    rw [ih (acc * 10 + (c - 48))]
    have hv : digitsValue (c :: s) = (c - 48) * 10 ^ s.length + digitsValue s := by
      unfold digitsValue
      simp only [List.foldl_cons]
      rw [ih (0 * 10 + (c - 48))]
      simp [digitsValue]
    rw [hv, pow_succ]
    ring

/-- Peeling the leading digit off a decimal value. -/
theorem digitsValue_cons (c : Nat) (s : List Nat) :
    digitsValue (c :: s) = (c - 48) * 10 ^ s.length + digitsValue s := by
  have h := digitsValue_foldl s (0 * 10 + (c - 48))
  unfold digitsValue
  simp only [List.foldl_cons]
  rw [h]
  simp [digitsValue]

/-- The value of a digit string is bounded by `10 ^ length`. -/
theorem digitsValue_lt (s : List Nat) (hdig : s.all isDigitByte = true) :
    digitsValue s < 10 ^ s.length := by
  induction s with
  | nil =>
    simp [digitsValue]
  | cons c s ih =>
    simp only [List.all_cons, Bool.and_eq_true] at hdig
    have hc : 48 ≤ c ∧ c ≤ 57 := by
      have := hdig.1
      unfold isDigitByte at this
      simp only [Bool.and_eq_true, decide_eq_true_eq] at this
      exact this
    have hv := digitsValue_cons c s
    have hrec := ih hdig.2
    have hd9 : c - 48 ≤ 9 := by omega
    have hm : (c - 48) * 10 ^ s.length ≤ 9 * 10 ^ s.length :=
      Nat.mul_le_mul_right _ hd9
    rw [hv]
    have hps : (10 : Nat) ^ (s.length + 1) = 10 ^ s.length * 10 := pow_succ 10 s.length
    simp only [List.length_cons]
    omega

/-- On equal-length digit strings, lexicographic order implies numeric
order of the decimal values. -/
theorem lexLt_digitsValue : ∀ s t : List Nat, s.length = t.length →
    s.all isDigitByte = true → t.all isDigitByte = true →
    lexLt s t = true → digitsValue s < digitsValue t := by
  intro s
  induction s with
  | nil =>
    intro t hlen _ _ hlex
    have : t = [] := List.eq_nil_of_length_eq_zero hlen.symm
    rw [this] at hlex
    cases hlex
  | cons a as ih =>
    intro t hlen hds hdt hlex
    cases t with
    | nil => cases hlex
    | cons b bs =>
      simp only [List.length_cons] at hlen
      have hlen2 : as.length = bs.length := by omega
      simp only [List.all_cons, Bool.and_eq_true] at hds hdt
      have ha : 48 ≤ a ∧ a ≤ 57 := by
        have := hds.1
        unfold isDigitByte at this
        simp only [Bool.and_eq_true, decide_eq_true_eq] at this
        exact this
      have hb : 48 ≤ b ∧ b ≤ 57 := by
        have := hdt.1
        unfold isDigitByte at this
        simp only [Bool.and_eq_true, decide_eq_true_eq] at this
        exact this
      have hva := digitsValue_cons a as
      have hvb := digitsValue_cons b bs
      simp only [lexLt, Bool.or_eq_true, Bool.and_eq_true, decide_eq_true_eq] at hlex
      rcases hlex with hab | ⟨hab, htail⟩
      · have hsucc : (a - 48) + 1 ≤ b - 48 := by omega
        have h1 : digitsValue as < 10 ^ as.length := digitsValue_lt as hds.2
        have h2 : ((a - 48) + 1) * 10 ^ as.length ≤ (b - 48) * 10 ^ as.length :=
          Nat.mul_le_mul_right _ hsucc
        have h3 : ((a - 48) + 1) * 10 ^ as.length
            = (a - 48) * 10 ^ as.length + 10 ^ as.length := by ring
        rw [hva, hvb, ← hlen2]
        omega
      · have hrec := ih bs hlen2 hds.2 hdt.2 htail
        rw [hva, hvb, hab, ← hlen2]
        omega

/-- What a successful `ParseUint` run certifies about the string. -/
theorem parseUint64_some (s : List Nat) (v : Nat) (h : parseUint64 s = some v) :
    s.all isDigitByte = true ∧ v = digitsValue s ∧ v < 2 ^ 64 := by
  unfold parseUint64 at h
  split at h
  · cases h
  · split at h
    · cases h
    · split at h
      · rename_i hdig hlt
        injection h with h
        refine ⟨?_, h.symm, by omega⟩
        simpa using hdig
      · cases h

/-- What registration certifies about the entry and the built segment. -/
theorem registeredSegment_some (f : DirEntry) (s : Segment)
    (h : registeredSegment f = some s) :
    f.name.length = 20 ∧ f.name.all isDigitByte = true ∧
    s.index = digitsValue f.name ∧ 0 < s.index ∧ s.path = f.name := by
  unfold registeredSegment at h
  split at h
  · cases h
  · split at h
    · rename_i h20
      split at h
      · rename_i v hp
        split at h
        · rename_i hpos
          injection h with h
          obtain ⟨hdig, hv, -⟩ := parseUint64_some f.name v hp
          rw [← h]
          exact ⟨h20, hdig, hv, hpos, rfl⟩
        · cases h
      · cases h
    · cases h

/-- Pairwise order survives `filterMap` when the mapping translates the
relation. -/
theorem pairwise_filterMap_mono {α β : Type} (g : α → Option β)
    (R : α → α → Prop) (S : β → β → Prop) (l : List α)
    (hrel : ∀ a b x y, R a b → g a = some x → g b = some y → S x y)
    (hp : l.Pairwise R) : (l.filterMap g).Pairwise S := by
  induction hp with
  | nil => simp
  | @cons a l' hhead htail ih =>
    simp only [List.filterMap_cons]
    cases hg : g a with
    | none => exact ih
    | some x =>
      refine List.Pairwise.cons ?_ ih
      intro y hy
      obtain ⟨b, hb, hgb⟩ := List.mem_filterMap.mp hy
      exact hrel a b x y (hhead b hb) hg hgb

/-- Registered segments of a lexicographically sorted listing carry
strictly increasing indices. -/
theorem scanSegments_pairwise (files : List DirEntry)
    (hsorted : files.Pairwise (fun f g => lexLt f.name g.name = true)) :
    (scanSegments files).Pairwise (fun s t => s.index < t.index) := by
  rw [scanSegments_eq_filterMap]
  refine pairwise_filterMap_mono registeredSegment _ _ files ?_ hsorted
  intro f g s t hlex hf hg
  obtain ⟨hf20, hfdig, hfi, -, -⟩ := registeredSegment_some f s hf
  obtain ⟨hg20, hgdig, hgi, -, -⟩ := registeredSegment_some g t hg
  rw [hfi, hgi]
  exact lexLt_digitsValue f.name g.name (by omega) hfdig hgdig hlex

/-- C6: after every successful recovery, the segment sequence is
non-empty and sorted strictly ascending by starting index. The directory
listing order is not numerically guaranteed; what `os.ReadDir` does
guarantee is byte-wise lexicographic name order (`hsorted`), which for the
fixed-width zero-padded names is equivalent to ascending parsed-index
order. -/
theorem C6_segments_sorted (files : List DirEntry) (perms : Nat) (tail : List Nat)
    (ops : List FsOp) (segs : List Segment)
    (hsorted : files.Pairwise (fun f g => lexLt f.name g.name = true))
    (h : loadSegments files perms tail = (ops, .ok segs)) :
    segs ≠ [] ∧ segs.Pairwise (fun s t => s.index < t.index) := by
  have hP := scanSegments_pairwise files hsorted
  simp only [loadSegments] at h
  cases hlast : (scanSegments files).getLast? with
  | none =>
    rw [hlast] at h
    have h2 := congrArg Prod.snd h
    simp only [createInitialSegment, Except.ok.injEq] at h2
    rw [← h2]
    simp
  | some lastSeg =>
    rw [hlast] at h
    cases hlse : loadSegmentEntries tail with
    | error e =>
      have h2 := congrArg Prod.snd h
      simp only [openLastSegment, hlse] at h2
      cases h2
    | ok prc =>
      have h2 := congrArg Prod.snd h
      simp only [openLastSegment, hlse, Except.ok.injEq] at h2
      have hS : (scanSegments files).dropLast ++ [lastSeg] = scanSegments files :=
        List.dropLast_append_getLast? lastSeg (by rw [hlast]; rfl)
      rw [← hS] at hP
      obtain ⟨hP1, -, hP3⟩ := List.pairwise_append.mp hP
      rw [← h2]
      constructor
      · simp
      · refine List.pairwise_append.mpr ⟨hP1, by simp, ?_⟩
        intro x hx y hy
        have hy2 : y = { lastSeg with cbuf := prc.1, cpos := prc.2 } :=
          List.mem_singleton.mp hy
        rw [hy2]
        exact hP3 x hx lastSeg (List.mem_singleton.mpr rfl)

/-- Witness for C6: a two-segment listing in lexicographic order yields
the ascending, non-empty segment list. -/
theorem C6_witness :
    ([{ path := segmentName 3, index := 3, cbuf := [], cpos := [] },
      { path := segmentName 7, index := 7, cbuf := [], cpos := [] }] : List Segment) ≠ [] ∧
    ([{ path := segmentName 3, index := 3, cbuf := [], cpos := [] },
      { path := segmentName 7, index := 7, cbuf := [], cpos := [] }] : List Segment).Pairwise
        (fun s t => s.index < t.index) := by
  have hok : loadSegmentEntries [] = .ok ([], []) := by
    unfold loadSegmentEntries
    rw [lseGo_eq_nil [] 0 rfl]
  have hsorted : ([⟨segmentName 3, false⟩, ⟨segmentName 7, false⟩] :
      List DirEntry).Pairwise (fun f g => lexLt f.name g.name = true) := by
    refine List.Pairwise.cons ?_ (List.pairwise_singleton _ _)
    intro g hg
    rw [List.mem_singleton.mp hg]
    exact toPaddedDigits_lt 20 3 7 (by norm_num) (by norm_num)
  have hload : loadSegments [⟨segmentName 3, false⟩, ⟨segmentName 7, false⟩] 0o640 [] =
      ([FsOp.openFile (segmentName 7) ⟨OpenMode.wronly, false, false⟩ 0o640,
        FsOp.seekEnd (segmentName 7), FsOp.readFile (segmentName 7)],
       .ok [{ path := segmentName 3, index := 3, cbuf := [], cpos := [] },
            { path := segmentName 7, index := 7, cbuf := [], cpos := [] }]) := by
    simp only [loadSegments, openLastSegment, hok]
    rfl
  exact C6_segments_sorted [⟨segmentName 3, false⟩, ⟨segmentName 7, false⟩] 0o640 []
    _ _ hsorted hload

/-- C4 counterexample: with a single segment file on disk, recovery opens
the tail file write-only (`os.O_WRONLY`), not read-write as the claim
states — the recorded trace contains exactly one open, with mode
`wronly`, and `wronly ≠ rdwr`. -/
theorem C4_counterexample :
    (loadSegments [⟨segmentName 1, false⟩] 0o640 []).1 =
      [FsOp.openFile (segmentName 1) ⟨OpenMode.wronly, false, false⟩ 0o640,
       FsOp.seekEnd (segmentName 1), FsOp.readFile (segmentName 1)] ∧
    OpenMode.wronly ≠ OpenMode.rdwr := by
  constructor
  · rfl
  · intro h
    cases h

/-- C4 amended: whenever recovery finds at least one segment file, the
last one in sorted order becomes the tail: its file is opened write-only
(`O_WRONLY` — not read-write), the handle is seeked to end-of-file, its
full contents are read, and the cache-build procedure runs on them,
updating the tail segment in place on success. -/
theorem C4_tail_open (files : List DirEntry) (perms : Nat) (tail : List Nat)
    (lastSeg : Segment)
    (hlast : (scanSegments files).getLast? = some lastSeg) :
    (loadSegments files perms tail).1 =
      [FsOp.openFile lastSeg.path ⟨OpenMode.wronly, false, false⟩ perms,
       FsOp.seekEnd lastSeg.path, FsOp.readFile lastSeg.path] ∧
    (∀ buf ps, loadSegmentEntries tail = .ok (buf, ps) →
      (loadSegments files perms tail).2 =
        .ok ((scanSegments files).dropLast ++ [{ lastSeg with cbuf := buf, cpos := ps }])) := by
  simp only [loadSegments]
  rw [hlast]
  constructor
  · rfl
  · intro buf ps hok
    simp only [openLastSegment, hok]

/-- Witness for C4 (amended form) on a directory holding segment 1 with an
empty tail file. -/
theorem C4_witness :
    (loadSegments [⟨segmentName 1, false⟩] 0o640 []).2 =
      .ok [{ path := segmentName 1, index := 1, cbuf := [], cpos := [] }] := by
  have hok : loadSegmentEntries [] = .ok ([], []) := by
    unfold loadSegmentEntries
    rw [lseGo_eq_nil [] 0 rfl]
  have h := (C4_tail_open [⟨segmentName 1, false⟩] 0o640 []
    { path := segmentName 1, index := 1, cbuf := [], cpos := [] } rfl).2 [] [] hok
  exact h

/-- C3: if decoding the tail segment's contents fails during recovery,
the open operation fails with an error wrapping `ErrCorrupt` and the
log's `corrupt` flag is set, so the guard consulted by reads and writes
answers `ErrCorrupt` until the log is closed. -/
theorem C3_corrupt_on_tail_decode_failure (cfg : Config) (files : List DirEntry)
    (tail : List Nat) (lastSeg : Segment) (e0 : Err)
    (hlast : (scanSegments files).getLast? = some lastSeg)
    (hfail : loadSegmentEntries tail = .error e0) :
    (∃ e, (openLog cfg files tail).2.2 = some e ∧ wrapsCorrupt e = true) ∧
    (openLog cfg files tail).1.corrupt = true ∧
    readWriteGuard (openLog cfg files tail).1 = some Err.errCorrupt := by
  have he0 : wrapsCorrupt e0 = true := by
    unfold loadSegmentEntries at hfail
    cases hg : lseGo tail 0 with
    | error e2 =>
      rw [hg] at hfail
      injection hfail with hfail
      rw [← hfail]
      exact lseGo_error_wrapsCorrupt tail.length tail 0 e2 (le_refl _) hg
    | ok ps =>
      rw [hg] at hfail
      cases hfail
  have hload : (loadSegments files (Config.Validate cfg).filePerms tail).2 =
      .error (.wrapped msgOpenLast (.wrapped msgLoadLastEntries e0)) := by
    simp only [loadSegments]
    rw [hlast]
    simp only [openLastSegment, hfail]
  simp only [openLog]
  rw [hload]
  refine ⟨⟨.wrapped msgOpenLast (.wrapped msgLoadLastEntries e0), rfl, ?_⟩, rfl, rfl⟩
  simp only [wrapsCorrupt]
  exact he0

/-- Witness for C3: segment 1 on disk with a truncated-varint tail file. -/
theorem C3_witness :
    (openLog DefaultConfig [⟨segmentName 1, false⟩] [0x80]).1.corrupt = true ∧
    readWriteGuard (openLog DefaultConfig [⟨segmentName 1, false⟩] [0x80]).1
      = some Err.errCorrupt := by
  have hfail : loadSegmentEntries [0x80] = .error (.wrapped msgBinaryEntry .errCorrupt) := by
    unfold loadSegmentEntries
    rw [lseGo_eq_error [0x80] 0 .errCorrupt (by decide) rfl]
  have h := C3_corrupt_on_tail_decode_failure DefaultConfig [⟨segmentName 1, false⟩]
    [0x80] { path := segmentName 1, index := 1, cbuf := [], cpos := [] }
    (.wrapped msgBinaryEntry .errCorrupt) rfl hfail
  exact ⟨h.2.1, h.2.2⟩

end Jellywal
